import Mathlib

/-!
Verification of the pizza-configurator component (CreatePizzaPage).

The component holds a selection state (size id, crust id, ordered list of
topping ids) and derives pricing and eligibility values from it.  We embed
each function of the source shallowly: lists of ids for the topping state,
rationals for prices, an explicit step/settle relation for the React state
updates and the auto-reset effect.
-/

/-- A pizza size catalog entry: id, display name, price, maximum toppings. -/
structure PizzaSize where
  id : String
  name : String
  price : ℚ
  maxToppings : ℕ
deriving DecidableEq, Repr

/-- The order value handed to the checkout callback
(fields as in the source model: size, crust, toppings). -/
structure Pizza where
  size : String
  crust : String
  toppings : List String
deriving DecidableEq, Repr

/-- The component selection state: selected size id, crust id, and the
ordered list of selected topping ids. -/
structure ConfigState where
  selectedPizzaSize : String
  selectedPizzaCrust : String
  selectedToppings : List String
deriving DecidableEq, Repr

/-- Lookup of a size id in the size catalog (the Record indexing
pizzaSizes[id] of the source, as an Option). -/
def findSize (pizzaSizes : List PizzaSize) (sizeId : String) : Option PizzaSize :=
  pizzaSizes.find? (fun sz => sz.id = sizeId)

/-- JS Array.prototype.indexOf: index of the first occurrence, or -1. -/
def jsIndexOf : List String → String → Int
  | [], _ => -1
  | x :: xs, a =>
      if x = a then 0
      else if jsIndexOf xs a = -1 then -1 else jsIndexOf xs a + 1

/-- addTopping from the source: append the ingredient id at the end. -/
def addTopping (ingredientId : String) (selectedToppings : List String) : List String :=
  selectedToppings ++ [ingredientId]

/-- removeTopping from the source: keep exactly the ids different from the
removed one (Array.prototype.filter with id !== ingredientId). -/
def removeTopping (ingredientId : String) (selectedToppings : List String) : List String :=
  selectedToppings.filter (fun id => id ≠ ingredientId)

/-- toggleTopping from the source: remove the id when present, otherwise
append it at the end. -/
def toggleTopping (ingredientId : String) (selectedToppings : List String) : List String :=
  if ingredientId ∈ selectedToppings then
    removeTopping ingredientId selectedToppings
  else
    addTopping ingredientId selectedToppings

/-- getIngredientPrice from the source: everything is free below the free
allowance; at or above it, an id is free exactly when its indexOf position
is in [0, maxFreeToppings). -/
def getIngredientPrice (maxFreeToppings : ℕ) (pricePerTopping : ℚ)
    (selectedToppings : List String) (ingredientId : String) : ℚ :=
  if selectedToppings.length < maxFreeToppings then 0
  else
    let index := jsIndexOf selectedToppings ingredientId
    if 0 ≤ index ∧ index < (maxFreeToppings : Int) then 0 else pricePerTopping

/-- isIngredientEnabled from the source; the Record access
pizzaSizes[selectedPizzaSize] is modelled as an Option lookup (the source
would fault on a missing size, hence none there). -/
def isIngredientEnabled (pizzaSizes : List PizzaSize) (s : ConfigState)
    (ingredientId : String) : Option Bool :=
  (findSize pizzaSizes s.selectedPizzaSize).map (fun sz =>
    if s.selectedToppings.length < sz.maxToppings then true
    else s.selectedToppings.contains ingredientId)

/-- The auto-reset effect from the source: clear the toppings when their
count exceeds the selected size's maxToppings.  The optional chaining
pizzaSizes[id]?.maxToppings makes the comparison false on a missing size,
so nothing is reset then. -/
def settle (pizzaSizes : List PizzaSize) (s : ConfigState) : ConfigState :=
  match findSize pizzaSizes s.selectedPizzaSize with
  | some sz =>
      if sz.maxToppings < s.selectedToppings.length then
        { s with selectedToppings := [] }
      else s
  | none => s

/-- The user operations of the component. -/
inductive Op where
  | selectSize (id : String)
  | selectCrust (id : String)
  | toggleTopping (id : String)
deriving DecidableEq, Repr

/-- The raw state update of one operation (the setState call). -/
def stepOp (s : ConfigState) : Op → ConfigState
  | .selectSize id => { s with selectedPizzaSize := id }
  | .selectCrust id => { s with selectedPizzaCrust := id }
  | .toggleTopping id =>
      { s with selectedToppings := toggleTopping id s.selectedToppings }

/-- One operation followed by the synchronous auto-reset check. -/
def applyOp (pizzaSizes : List PizzaSize) (s : ConfigState) (op : Op) : ConfigState :=
  settle pizzaSizes (stepOp s op)

/-- Running a sequence of operations; the effect also runs on the initial
render, hence the settle on the starting state. -/
def runOps (pizzaSizes : List PizzaSize) (s : ConfigState) (ops : List Op) : ConfigState :=
  ops.foldl (applyOp pizzaSizes) (settle pizzaSizes s)

/-- The selected size id resolves in the catalog. -/
def sizeInCatalog (pizzaSizes : List PizzaSize) (s : ConfigState) : Prop :=
  ∃ sz, findSize pizzaSizes s.selectedPizzaSize = some sz

/-- A selectSize operation only picks ids present in the catalog. -/
def opValid (pizzaSizes : List PizzaSize) : Op → Prop
  | .selectSize id => ∃ sz, findSize pizzaSizes id = some sz
  | .selectCrust _ => True
  | .toggleTopping _ => True

/-- The checkout click handler: it invokes the onCheckout callback once
with the current size, crust and toppings, and performs no state update.
The emitted calls are returned as a list alongside the unchanged state. -/
def finalize (s : ConfigState) : ConfigState × List Pizza :=
  (s, [{ size := s.selectedPizzaSize
         crust := s.selectedPizzaCrust
         toppings := s.selectedToppings }])

/-- Math.max over the catalog prices (nonempty catalog). -/
def maxPrice : List PizzaSize → ℚ
  | [] => 0
  | sz :: rest => rest.foldl (fun m s => max m s.price) sz.price

/-- The relative price scale of one size: its price over the maximum
catalog price (the fraction rendered for PizzaSizeOption). -/
def imageScale (pizzaSizes : List PizzaSize) (sz : PizzaSize) : ℚ :=
  sz.price / maxPrice pizzaSizes

/-- The imageSize percentage string content of the source:
(price / maxPrice) * 100. -/
def imageSizePercent (pizzaSizes : List PizzaSize) (sz : PizzaSize) : ℚ :=
  (sz.price / maxPrice pizzaSizes) * 100

/- ===== helper lemmas about jsIndexOf ===== -/

/-- jsIndexOf is -1 exactly on absent ids. -/
theorem jsIndexOf_eq_neg_one_of_not_mem {l : List String} {a : String}
    (h : a ∉ l) : jsIndexOf l a = -1 := by
  induction l with
  | nil => rfl
  | cons x xs ih =>
      have hxa : x ≠ a := fun hx => h (hx ▸ List.mem_cons_self x xs)
      have hxs : a ∉ xs := fun hx => h (List.mem_cons_of_mem x hx)
      simp [jsIndexOf, hxa, ih hxs]

/-- On a duplicate-free list, jsIndexOf of the element at position i is i. -/
theorem jsIndexOf_get {l : List String} (hnd : l.Nodup) (i : Fin l.length) :
    jsIndexOf l (l.get i) = (i : ℤ) := by
  induction l with
  | nil => exact absurd i.isLt (by simp)
  | cons x xs ih =>
      rcases i with ⟨iv, hi⟩
      cases iv with
      | zero => simp [jsIndexOf]
      | succ j =>
          have hj : j < xs.length := Nat.lt_of_succ_lt_succ hi
          have hmem : xs.get ⟨j, hj⟩ ∈ xs := List.get_mem xs j hj
          have hx : x ∉ xs := (List.nodup_cons.mp hnd).1
          have hnd' : xs.Nodup := (List.nodup_cons.mp hnd).2
          have hne : x ≠ xs.get ⟨j, hj⟩ := fun he => hx (he ▸ hmem)
          have hrec := ih hnd' ⟨j, hj⟩
          have hget : (x :: xs).get ⟨j + 1, hi⟩ = xs.get ⟨j, hj⟩ := rfl
          have hge : (0 : ℤ) ≤ jsIndexOf xs (xs.get ⟨j, hj⟩) := by
            rw [hrec]; exact Int.ofNat_nonneg j
          have hneq : jsIndexOf xs (xs.get ⟨j, hj⟩) ≠ -1 := by
            intro hcon; rw [hcon] at hge; omega
          simp only [hget, jsIndexOf, if_neg hne, if_neg hneq, hrec]
          push_cast
          ring

/-- C1: the two-branch free-topping pricing.  Below the allowance every
selected id is free; at or above it, a selected id is free exactly when
its selection-order index is below the allowance, and costs the
per-topping price otherwise. -/
theorem price_free_allowance_policy (N : ℕ) (p : ℚ) (l : List String)
    (hnd : l.Nodup) :
    (l.length < N → ∀ id ∈ l, getIngredientPrice N p l id = 0) ∧
    (N ≤ l.length → ∀ i : Fin l.length,
      getIngredientPrice N p l (l.get i) = if (i : ℕ) < N then 0 else p) := by
  constructor
  · intro hlt id _
    simp [getIngredientPrice, hlt]
  · intro hge i
    have hnlt : ¬ l.length < N := Nat.not_lt.mpr hge
    have hidx := jsIndexOf_get hnd i
    have hbranch : getIngredientPrice N p l (l.get i) =
        if 0 ≤ jsIndexOf l (l.get i) ∧ jsIndexOf l (l.get i) < (N : ℤ) then 0
        else p := by
      simp [getIngredientPrice, hnlt]
    rw [hbranch, hidx]
    by_cases hiN : (i : ℕ) < N
    · rw [if_pos ⟨Int.ofNat_nonneg _, by exact_mod_cast hiN⟩, if_pos hiN]
    · rw [if_neg (fun hc => hiN (by exact_mod_cast hc.2)), if_neg hiN]

/-- Witness for C1 at the spec example: allowance 2, price 1.50,
selections [A, B, C] give prices 0, 0 and 1.50. -/
theorem price_free_allowance_policy_witness :
    getIngredientPrice 2 (3/2) ["A", "B", "C"] "A" = 0 ∧
    getIngredientPrice 2 (3/2) ["A", "B", "C"] "B" = 0 ∧
    getIngredientPrice 2 (3/2) ["A", "B", "C"] "C" = 3/2 := by
  have h := (price_free_allowance_policy 2 (3/2) ["A", "B", "C"]
    (by decide)).2 (by decide)
  refine ⟨?_, ?_, ?_⟩
  · have := h ⟨0, by decide⟩; simpa using this
  · have := h ⟨1, by decide⟩; simpa using this
  · have := h ⟨2, by decide⟩; simpa using this

/- ===== the auto-reset invariant (C2, C3) ===== -/

/-- The settle step never changes the selected size. -/
theorem settle_selectedPizzaSize (pizzaSizes : List PizzaSize) (s : ConfigState) :
    (settle pizzaSizes s).selectedPizzaSize = s.selectedPizzaSize := by
  unfold settle
  cases findSize pizzaSizes s.selectedPizzaSize with
  | none => rfl
  | some sz =>
      by_cases h : sz.maxToppings < s.selectedToppings.length <;> simp [h]

/-- After a settle on a state whose size resolves in the catalog, the
topping count is within that size's limit. -/
theorem settle_le_maxToppings {pizzaSizes : List PizzaSize} {s : ConfigState}
    {sz : PizzaSize} (h : findSize pizzaSizes s.selectedPizzaSize = some sz) :
    (settle pizzaSizes s).selectedToppings.length ≤ sz.maxToppings := by
  unfold settle
  rw [h]
  by_cases hlen : sz.maxToppings < s.selectedToppings.length
  · simp [hlen]
  · simpa [hlen] using Nat.not_lt.mp hlen

/-- A raw operation step keeps the size resolvable when selectSize ids are
taken from the catalog. -/
theorem sizeInCatalog_stepOp {pizzaSizes : List PizzaSize} {s : ConfigState}
    {op : Op} (hs : sizeInCatalog pizzaSizes s) (hop : opValid pizzaSizes op) :
    sizeInCatalog pizzaSizes (stepOp s op) := by
  cases op with
  | selectSize id => exact hop
  | selectCrust id => exact hs
  | toggleTopping id => exact hs

/-- Settling keeps the size resolvable. -/
theorem sizeInCatalog_settle {pizzaSizes : List PizzaSize} {s : ConfigState}
    (hs : sizeInCatalog pizzaSizes s) :
    sizeInCatalog pizzaSizes (settle pizzaSizes s) := by
  obtain ⟨sz, hsz⟩ := hs
  exact ⟨sz, by rw [settle_selectedPizzaSize]; exact hsz⟩

/-- C2: after any sequence of valid operations settles (the synchronous
auto-reset has run), the topping count is at most the active size's
maxToppings. -/
theorem toppings_never_exceed_max (pizzaSizes : List PizzaSize)
    (s : ConfigState) (ops : List Op)
    (hs : sizeInCatalog pizzaSizes s)
    (hops : ∀ op ∈ ops, opValid pizzaSizes op) :
    ∃ sz, findSize pizzaSizes (runOps pizzaSizes s ops).selectedPizzaSize = some sz ∧
      (runOps pizzaSizes s ops).selectedToppings.length ≤ sz.maxToppings := by
  induction ops generalizing s with
  | nil =>
      obtain ⟨sz, hsz⟩ := hs
      refine ⟨sz, ?_, ?_⟩
      · show findSize pizzaSizes (settle pizzaSizes s).selectedPizzaSize = some sz
        rw [settle_selectedPizzaSize]; exact hsz
      · exact settle_le_maxToppings hsz
  | cons op rest ih =>
      have hop : opValid pizzaSizes op := hops op (List.mem_cons_self op rest)
      have hrest : ∀ o ∈ rest, opValid pizzaSizes o :=
        fun o ho => hops o (List.mem_cons_of_mem op ho)
      have hstep : sizeInCatalog pizzaSizes (stepOp (settle pizzaSizes s) op) :=
        sizeInCatalog_stepOp (sizeInCatalog_settle hs) hop
      have hrun : runOps pizzaSizes s (op :: rest) =
          runOps pizzaSizes (stepOp (settle pizzaSizes s) op) rest := by
        unfold runOps
        rfl
      rw [hrun]
      exact ih _ hstep hrest

/-- Witness for C2: one size of max 2 in the catalog, three toggles; the
settled state respects the limit. -/
theorem toppings_never_exceed_max_witness :
    ∃ sz, findSize [⟨"small", "Small", 8, 2⟩]
        (runOps [⟨"small", "Small", 8, 2⟩] ⟨"small", "thin", []⟩
          [.toggleTopping "A", .toggleTopping "B", .toggleTopping "C"]).selectedPizzaSize
        = some sz ∧
      (runOps [⟨"small", "Small", 8, 2⟩] ⟨"small", "thin", []⟩
          [.toggleTopping "A", .toggleTopping "B", .toggleTopping "C"]).selectedToppings.length
        ≤ sz.maxToppings :=
  toppings_never_exceed_max [⟨"small", "Small", 8, 2⟩] ⟨"small", "thin", []⟩
    [.toggleTopping "A", .toggleTopping "B", .toggleTopping "C"]
    ⟨⟨"small", "Small", 8, 2⟩, by decide⟩
    (by intro op hop; fin_cases hop <;> trivial)

/-- C3: when the topping count exceeds the (catalog-resolved) selected
size's maxToppings, settling clears the selection entirely. -/
theorem settle_clears_to_empty {pizzaSizes : List PizzaSize} {s : ConfigState}
    {sz : PizzaSize} (h : findSize pizzaSizes s.selectedPizzaSize = some sz)
    (hlen : sz.maxToppings < s.selectedToppings.length) :
    (settle pizzaSizes s).selectedToppings = [] := by
  unfold settle
  rw [h]
  simp [hlen]

/-- Witness for C3 at the spec example: toppings [A, B, C] and a size of
max 2 settle to the empty selection, not a truncation. -/
theorem settle_clears_to_empty_witness :
    (settle [⟨"small", "Small", 8, 2⟩] ⟨"small", "thin", ["A", "B", "C"]⟩).selectedToppings
      = [] :=
  @settle_clears_to_empty [⟨"small", "Small", 8, 2⟩]
    ⟨"small", "thin", ["A", "B", "C"]⟩ ⟨"small", "Small", 8, 2⟩
    (by decide) (by decide)

/- ===== helper lemmas about removeTopping ===== -/

/-- Removing an absent id is the identity. -/
theorem removeTopping_eq_self {a : String} {l : List String} (h : a ∉ l) :
    removeTopping a l = l := by
  induction l with
  | nil => rfl
  | cons x xs ih =>
      have hxa : x ≠ a := fun he => h (he ▸ List.mem_cons_self x xs)
      have hxs : a ∉ xs := fun hx => h (List.mem_cons_of_mem x hx)
      simp only [removeTopping] at ih ⊢
      simp [List.filter_cons, hxa, ih hxs]
      exact fun b hb he => hxs (he ▸ hb)

/-- removeTopping distributes over append. -/
theorem removeTopping_append (a : String) (l₁ l₂ : List String) :
    removeTopping a (l₁ ++ l₂) = removeTopping a l₁ ++ removeTopping a l₂ := by
  simp [removeTopping, List.filter_append]

/-- The removed id is gone from the result. -/
theorem not_mem_removeTopping (a : String) (l : List String) :
    a ∉ removeTopping a l := by
  intro hmem
  have := (List.mem_filter.mp hmem).2
  simp at this

/-- Every other id survives removeTopping. -/
theorem mem_removeTopping_of_ne {a b : String} (hne : b ≠ a) {l : List String}
    (h : b ∈ l) : b ∈ removeTopping a l :=
  List.mem_filter.mpr ⟨h, by simp [hne]⟩

/-- removeTopping keeps the surviving ids in their relative order. -/
theorem removeTopping_sublist (a : String) (l : List String) :
    (removeTopping a l).Sublist l :=
  List.filter_sublist l

/- ===== C5: toggleTopping semantics ===== -/

/-- C5: toggling a present id removes it (no occurrence remains, the rest
keep their relative order and are all kept); toggling an absent id appends
it at the end; and the toggled id never ends up duplicated. -/
theorem toggleTopping_semantics (a : String) (l : List String) :
    (a ∈ l → a ∉ toggleTopping a l ∧ (toggleTopping a l).Sublist l ∧
      ∀ b, b ≠ a → b ∈ l → b ∈ toggleTopping a l) ∧
    (a ∉ l → toggleTopping a l = l ++ [a]) ∧
    (toggleTopping a l).count a ≤ 1 := by
  refine ⟨?_, ?_, ?_⟩
  · intro hmem
    rw [toggleTopping, if_pos hmem]
    exact ⟨not_mem_removeTopping a l, removeTopping_sublist a l,
      fun b hb hbl => mem_removeTopping_of_ne hb hbl⟩
  · intro hmem
    rw [toggleTopping, if_neg hmem]
    rfl
  · by_cases hmem : a ∈ l
    · rw [toggleTopping, if_pos hmem]
      have : a ∉ removeTopping a l := not_mem_removeTopping a l
      simp [List.count_eq_zero.mpr this]
    · rw [toggleTopping, if_neg hmem]
      have : l.count a = 0 := List.count_eq_zero.mpr hmem
      simp [addTopping, List.count_append, this]

/-- Witness for C5 on concrete inputs: toggling a present id and an absent
id behave as stated. -/
theorem toggleTopping_semantics_witness :
    toggleTopping "C" ["A", "B"] = ["A", "B"] ++ ["C"] ∧
    "A" ∉ toggleTopping "A" ["A", "B"] ∧
    (toggleTopping "A" ["A", "B"]).Sublist ["A", "B"] := by
  have h1 := (toggleTopping_semantics "C" ["A", "B"]).2.1 (by decide)
  have h2 := (toggleTopping_semantics "A" ["A", "B"]).1 (by decide)
  exact ⟨h1, h2.1, h2.2.1⟩

/- ===== C4: toggling twice ===== -/

/-- Toggling an absent id twice is the exact identity on the list. -/
theorem toggleTopping_twice_of_not_mem {a : String} {l : List String}
    (h : a ∉ l) : toggleTopping a (toggleTopping a l) = l := by
  have h1 : toggleTopping a l = l ++ [a] := by
    rw [toggleTopping, if_neg h]; rfl
  have h2 : a ∈ l ++ [a] := by simp
  rw [h1, toggleTopping, if_pos h2, removeTopping_append,
    removeTopping_eq_self h]
  simp [removeTopping]

/-- C4 (amended): on a duplicate-free list, toggling an id twice returns a
permutation of the original toppings (the same set); when the id was
absent, it is the exact identity.  (Toggling a present non-final id twice
moves it to the end, so exact order is not restored in general.) -/
theorem toggleTopping_twice (a : String) (l : List String) (hnd : l.Nodup) :
    (toggleTopping a (toggleTopping a l)).Perm l ∧
    (a ∉ l → toggleTopping a (toggleTopping a l) = l) := by
  refine ⟨?_, fun h => toggleTopping_twice_of_not_mem h⟩
  by_cases hmem : a ∈ l
  · obtain ⟨s, t, rfl⟩ := List.append_of_mem hmem
    have hmid := List.nodup_middle.mp hnd
    rw [List.nodup_cons] at hmid
    have has : a ∉ s := fun hx => hmid.1 (List.mem_append.mpr (Or.inl hx))
    have hat : a ∉ t := fun hx => hmid.1 (List.mem_append.mpr (Or.inr hx))
    have h1 : toggleTopping a (s ++ a :: t) = s ++ t := by
      rw [toggleTopping, if_pos hmem]
      have hcons : removeTopping a (a :: t) = removeTopping a t := by
        simp [removeTopping, List.filter_cons]
      rw [removeTopping_append, hcons, removeTopping_eq_self has,
        removeTopping_eq_self hat]
    have hnotmem : a ∉ s ++ t := fun hx => hmid.1 hx
    have h2 : toggleTopping a (s ++ t) = (s ++ t) ++ [a] := by
      rw [toggleTopping, if_neg hnotmem]; rfl
    rw [h1, h2, List.append_assoc]
    exact List.Perm.append_left s (List.perm_append_singleton a t)
  · rw [toggleTopping_twice_of_not_mem hmem]

/-- Witness for C4 (amended) at a concrete input: toggling B twice on
[A, B, C] yields a permutation of [A, B, C]. -/
theorem toggleTopping_twice_witness :
    (toggleTopping "B" (toggleTopping "B" ["A", "B", "C"])).Perm ["A", "B", "C"] :=
  (toggleTopping_twice "B" ["A", "B", "C"] (by decide)).1

/-- Counterexample to C4 as stated: toggling A twice on [A, B] gives
[B, A], not the original ordered list [A, B]. -/
theorem toggleTopping_twice_not_ordered_identity :
    toggleTopping "A" (toggleTopping "A" ["A", "B"]) ≠ ["A", "B"] := by
  decide

/- ===== C8: no-duplicate invariant ===== -/

/-- One toggle preserves duplicate-freedom of the topping list. -/
theorem toggleTopping_nodup {l : List String} (hnd : l.Nodup) (a : String) :
    (toggleTopping a l).Nodup := by
  by_cases hmem : a ∈ l
  · rw [toggleTopping, if_pos hmem]
    exact List.Nodup.filter _ hnd
  · rw [toggleTopping, if_neg hmem]
    refine List.Nodup.append hnd (List.nodup_singleton a) ?_
    intro x hx hx'
    rw [List.mem_singleton] at hx'
    exact hmem (hx' ▸ hx)

/-- C8: starting from a duplicate-free topping list, any sequence of
toggles leaves the list duplicate-free. -/
theorem toggle_sequence_nodup (ids : List String) (l : List String)
    (hnd : l.Nodup) :
    (ids.foldl (fun acc id => toggleTopping id acc) l).Nodup := by
  induction ids generalizing l with
  | nil => exact hnd
  | cons x xs ih => exact ih (toggleTopping x l) (toggleTopping_nodup hnd x)

/-- Witness for C8: a concrete toggle sequence keeps the list
duplicate-free. -/
theorem toggle_sequence_nodup_witness :
    (["A", "B", "A", "C"].foldl (fun acc id => toggleTopping id acc) ["B"]).Nodup :=
  toggle_sequence_nodup ["A", "B", "A", "C"] ["B"] (by decide)

/- ===== C6: isIngredientEnabled ===== -/

/-- C6: with the selected size resolved in the catalog, an ingredient is
enabled exactly when the topping count is below the size's maxToppings or
the ingredient is already selected. -/
theorem isIngredientEnabled_iff {pizzaSizes : List PizzaSize}
    {s : ConfigState} {sz : PizzaSize}
    (h : findSize pizzaSizes s.selectedPizzaSize = some sz)
    (ingredientId : String) :
    isIngredientEnabled pizzaSizes s ingredientId = some true ↔
      (s.selectedToppings.length < sz.maxToppings ∨
        ingredientId ∈ s.selectedToppings) := by
  unfold isIngredientEnabled
  rw [h]
  by_cases hlen : s.selectedToppings.length < sz.maxToppings
  · simp [hlen]
  · simp [hlen, List.contains, List.elem_eq_mem]

/-- Witness for C6: at the cap, a selected id stays enabled and an
unselected one does not. -/
theorem isIngredientEnabled_iff_witness :
    isIngredientEnabled [⟨"small", "Small", 8, 2⟩]
      ⟨"small", "thin", ["A", "B"]⟩ "A" = some true ∧
    ¬ isIngredientEnabled [⟨"small", "Small", 8, 2⟩]
      ⟨"small", "thin", ["A", "B"]⟩ "C" = some true := by
  constructor
  · exact (@isIngredientEnabled_iff [⟨"small", "Small", 8, 2⟩]
      ⟨"small", "thin", ["A", "B"]⟩ ⟨"small", "Small", 8, 2⟩
      (by decide) "A").mpr (Or.inr (by decide))
  · intro hc
    have := (@isIngredientEnabled_iff [⟨"small", "Small", 8, 2⟩]
      ⟨"small", "thin", ["A", "B"]⟩ ⟨"small", "Small", 8, 2⟩
      (by decide) "C").mp hc
    rcases this with hlt | hmem
    · exact absurd hlt (by decide)
    · exact absurd hmem (by decide)

/- ===== C7: checkout ===== -/

/-- C7: the checkout handler leaves the selection state unchanged and
invokes the checkout callback exactly once, with the current size, crust
and ordered topping list. -/
theorem finalize_invokes_once (s : ConfigState) :
    (finalize s).1 = s ∧
    (finalize s).2.length = 1 ∧
    (finalize s).2 = [{ size := s.selectedPizzaSize
                        crust := s.selectedPizzaCrust
                        toppings := s.selectedToppings }] :=
  ⟨rfl, rfl, rfl⟩

/- ===== C9: relative price scale ===== -/

/-- The fold seeding value bounds the fold of max from below. -/
theorem foldl_max_init_le (l : List PizzaSize) (m : ℚ) :
    m ≤ l.foldl (fun acc sz => max acc sz.price) m := by
  induction l generalizing m with
  | nil => exact le_refl m
  | cons x xs ih =>
      exact le_trans (le_max_left m x.price) (ih (max m x.price))

/-- Every member's price bounds the fold of max from below. -/
theorem le_foldl_max {l : List PizzaSize} {s : PizzaSize} (hs : s ∈ l)
    (m : ℚ) : s.price ≤ l.foldl (fun acc sz => max acc sz.price) m := by
  induction l generalizing m with
  | nil => cases hs
  | cons x xs ih =>
      rcases List.mem_cons.mp hs with he | hmem
      · subst he
        simp only [List.foldl_cons]
        exact le_trans (le_max_right m s.price)
          (foldl_max_init_le xs (max m s.price))
      · exact ih hmem (max m x.price)

/-- The fold of max is the seed or some member's price. -/
theorem foldl_max_attained (l : List PizzaSize) (m : ℚ) :
    l.foldl (fun acc sz => max acc sz.price) m = m ∨
    ∃ s ∈ l, l.foldl (fun acc sz => max acc sz.price) m = s.price := by
  induction l generalizing m with
  | nil => exact Or.inl rfl
  | cons x xs ih =>
      simp only [List.foldl_cons]
      rcases ih (max m x.price) with h | ⟨s, hs, heq⟩
      · by_cases hmx : m ≤ x.price
        · exact Or.inr ⟨x, List.mem_cons_self x xs,
            by rw [h]; exact max_eq_right hmx⟩
        · exact Or.inl (by rw [h]; exact max_eq_left (le_of_not_le hmx))
      · exact Or.inr ⟨s, List.mem_cons_of_mem x hs, heq⟩

/-- Every catalog price is at most maxPrice. -/
theorem le_maxPrice {sizes : List PizzaSize} {sz : PizzaSize}
    (h : sz ∈ sizes) : sz.price ≤ maxPrice sizes := by
  cases sizes with
  | nil => cases h
  | cons x xs =>
      rcases List.mem_cons.mp h with he | hmem
      · exact he ▸ foldl_max_init_le xs x.price
      · exact le_foldl_max hmem x.price

/-- maxPrice is attained by some catalog entry. -/
theorem maxPrice_attained {sizes : List PizzaSize} (h : sizes ≠ []) :
    ∃ sz ∈ sizes, maxPrice sizes = sz.price := by
  cases sizes with
  | nil => exact absurd rfl h
  | cons x xs =>
      rcases foldl_max_attained xs x.price with he | ⟨s, hs, heq⟩
      · exact ⟨x, List.mem_cons_self x xs, he⟩
      · exact ⟨s, List.mem_cons_of_mem x hs, heq⟩

/-- maxPrice is positive when every catalog price is. -/
theorem maxPrice_pos {sizes : List PizzaSize} (h : sizes ≠ [])
    (hpos : ∀ sz ∈ sizes, 0 < sz.price) : 0 < maxPrice sizes := by
  obtain ⟨sz, hm, he⟩ := maxPrice_attained h
  rw [he]
  exact hpos sz hm

/-- C9: each size's emitted scale is its price over the maximum catalog
price (rendered as the fraction times 100); with positive prices every
scale lies in (0, 1], a size priced at the maximum has scale 1, and some
size attains scale 1. -/
theorem imageScale_policy (sizes : List PizzaSize) (hne : sizes ≠ [])
    (hpos : ∀ sz ∈ sizes, 0 < sz.price) :
    (∀ sz ∈ sizes,
      imageSizePercent sizes sz = imageScale sizes sz * 100 ∧
      0 < imageScale sizes sz ∧ imageScale sizes sz ≤ 1 ∧
      (sz.price = maxPrice sizes → imageScale sizes sz = 1)) ∧
    ∃ sz ∈ sizes, imageScale sizes sz = 1 := by
  have hmp : 0 < maxPrice sizes := maxPrice_pos hne hpos
  constructor
  · intro sz hsz
    refine ⟨rfl, ?_, ?_, ?_⟩
    · exact div_pos (hpos sz hsz) hmp
    · exact (div_le_one hmp).mpr (le_maxPrice hsz)
    · intro he
      unfold imageScale
      rw [he]
      exact div_self (ne_of_gt hmp)
  · obtain ⟨sz, hm, he⟩ := maxPrice_attained hne
    refine ⟨sz, hm, ?_⟩
    unfold imageScale
    rw [he]
    exact div_self (ne_of_gt (hpos sz hm))

/-- Witness for C9 on a concrete catalog of prices 8 and 10: the cheaper
size scales to a value in (0, 1] and the most expensive scales to 1. -/
theorem imageScale_policy_witness :
    0 < imageScale [⟨"s", "Small", 8, 5⟩, ⟨"l", "Large", 10, 9⟩]
        ⟨"s", "Small", 8, 5⟩ ∧
    imageScale [⟨"s", "Small", 8, 5⟩, ⟨"l", "Large", 10, 9⟩]
        ⟨"s", "Small", 8, 5⟩ ≤ 1 ∧
    imageScale [⟨"s", "Small", 8, 5⟩, ⟨"l", "Large", 10, 9⟩]
        ⟨"l", "Large", 10, 9⟩ = 1 := by
  have h := imageScale_policy [⟨"s", "Small", 8, 5⟩, ⟨"l", "Large", 10, 9⟩]
    (by decide) (by decide)
  have h1 := h.1 ⟨"s", "Small", 8, 5⟩ (by decide)
  have h2 := h.1 ⟨"l", "Large", 10, 9⟩ (by decide)
  exact ⟨h1.2.1, h1.2.2.1, h2.2.2.2 (by decide)⟩

/- ===== C10: price of an unselected ingredient ===== -/

/-- C10: an unselected ingredient is shown price 0 below the free
allowance; at or above it, its indexOf is -1, so it falls to the paid
branch and is shown the per-topping price. -/
theorem unselected_ingredient_price (N : ℕ) (p : ℚ) (l : List String)
    (ingredientId : String) (h : ingredientId ∉ l) :
    (l.length < N → getIngredientPrice N p l ingredientId = 0) ∧
    (N ≤ l.length → getIngredientPrice N p l ingredientId = p) := by
  constructor
  · intro hlt
    simp [getIngredientPrice, hlt]
  · intro hge
    have hnlt : ¬ l.length < N := Nat.not_lt.mpr hge
    have hidx := jsIndexOf_eq_neg_one_of_not_mem h
    have hbranch : getIngredientPrice N p l ingredientId =
        if 0 ≤ jsIndexOf l ingredientId ∧
            jsIndexOf l ingredientId < (N : ℤ) then 0
        else p := by
      simp [getIngredientPrice, hnlt]
    rw [hbranch, hidx, if_neg]
    rintro ⟨h0, -⟩
    omega

/-- Witness for C10: with allowance 2 and selections [A, B], the
unselected id Z is shown the per-topping price. -/
theorem unselected_ingredient_price_witness :
    getIngredientPrice 2 (3/2) ["A", "B"] "Z" = 3/2 :=
  (unselected_ingredient_price 2 (3/2) ["A", "B"] "Z" (by decide)).2
    (by decide)
